import Mathlib

/-!
Shallow embedding of `wavenet/parallel_wavenet.py` (class `ParallelWavenet`).

Tensor operations in the source are elementwise over batched arrays, so the
embedding models a tensor element as a real number, a waveform as a `List ℝ`
and a batched 2-D tensor as a function of its indices.  Shape computations are
natural-number arithmetic.
-/

/-- `tf.clip_by_value(x, lo, hi)`. -/
noncomputable def clip_by_value (x lo hi : ℝ) : ℝ := min (max x lo) hi

/-- `tf.nn.softplus(x) = log(1 + exp x)`. -/
noncomputable def softplus (x : ℝ) : ℝ := Real.log (1 + Real.exp x)

/-- `tf.sigmoid(x) = 1 / (1 + exp(-x))`. -/
noncomputable def sigmoid (x : ℝ) : ℝ := 1 / (1 + Real.exp (-x))

/-- `tf.reduce_mean` over a flat list of reals (mean over all entries;
the empty mean is `0/0 = 0` which never occurs on real tensor shapes). -/
noncomputable def rmean (l : List ℝ) : ℝ := l.sum / l.length

/-- `tf.reduce_mean` over a 2-D tensor given as a list of rows. -/
noncomputable def reduce_mean_2d (m : List (List ℝ)) : ℝ :=
  (m.map List.sum).sum / ((m.map List.length).sum : ℕ)

/-- `ParallelWavenet._logistic_0_1` (lines 40-46) as a function of the
underlying uniform draw `u`: `rl = log u - log (1 - u)`. -/
noncomputable def logistic_0_1 (u : ℝ) : ℝ := Real.log u - Real.log (1 - u)

/-- Per-stage scale derivation of `_create_iaf` (lines 136-142).
In log-scale mode: `scale = exp(clip(raw, -9, 7))`; otherwise
`scale = clip(softplus(raw), exp(-9), exp(7))`. -/
noncomputable def stage_scale (use_log_scale : Bool) (raw : ℝ) : ℝ :=
  if use_log_scale then Real.exp (clip_by_value raw (-9) 7)
  else clip_by_value (softplus raw) (Real.exp (-9)) (Real.exp 7)

/-- Per-stage log-scale of `_create_iaf` (lines 136-142). -/
noncomputable def stage_log_scale (use_log_scale : Bool) (raw : ℝ) : ℝ :=
  if use_log_scale then clip_by_value raw (-9) 7
  else Real.log (stage_scale false raw)

/-- One IAF stage applied to the running sample (line 143):
`new_x = x * scale + mean`.  The stage's parameters are the pair
`p = (mean, scale)`. -/
def iaf_step (x : ℝ) (p : ℝ × ℝ) : ℝ := x * p.2 + p.1

/-- Threading the noise sample sequentially through the stages
(`iaf_x = iaf_dict['x']` in the loop of `feed_forward`, lines 171-173). -/
def seq_thread (x0 : ℝ) (ps : List (ℝ × ℝ)) : ℝ := ps.foldl iaf_step x0

/-- One step of the closed-form accumulation in `feed_forward`
(lines 176-177): `mean_tot = mean + mean_tot * scale`,
`scale_tot = scale_tot * scale`. -/
def acc_step (acc p : ℝ × ℝ) : ℝ × ℝ := (p.1 + acc.1 * p.2, acc.2 * p.2)

/-- The accumulated `(mean_tot, scale_tot)` of `feed_forward`
(lines 170-177), starting from `(0, 1)`. -/
def compose_acc (ps : List (ℝ × ℝ)) : ℝ × ℝ := ps.foldl acc_step (0, 1)

/-- `scale_tot` as returned by `feed_forward` (line 181):
the accumulated product clipped above by `exp 7`. -/
noncomputable def ff_scale_tot (ps : List (ℝ × ℝ)) : ℝ :=
  min (compose_acc ps).2 (Real.exp 7)

/-- `new_x` as returned by `feed_forward` (line 184):
`new_x = x * scale_tot + mean_tot` with the clipped `scale_tot`. -/
noncomputable def ff_new_x (z : ℝ) (ps : List (ℝ × ℝ)) : ℝ :=
  z * ff_scale_tot ps + (compose_acc ps).1

/-- Stage parameters `(mean, scale)` derived from raw projection outputs
`p = (mean, raw_scale_param)` in a given parameterization mode. -/
noncomputable def stage_of_raw (use_log_scale : Bool) (p : ℝ × ℝ) : ℝ × ℝ :=
  (p.1, stage_scale use_log_scale p.2)

/-- `(mean_tot, scale_tot)` returned by `feed_forward` when the stages are
driven by raw projection outputs `raws` in mode `use_log_scale`. -/
noncomputable def ff_totals (use_log_scale : Bool) (raws : List (ℝ × ℝ)) : ℝ × ℝ :=
  ((compose_acc (raws.map (stage_of_raw use_log_scale))).1,
    ff_scale_tot (raws.map (stage_of_raw use_log_scale)))

/-- Shape helpers of `feed_forward` (line 159): `frame_shift` is the product
of the deconvolution stride factors of `deconv_config`. -/
def frame_shift (deconv_config : List (ℕ × ℕ)) : ℕ :=
  (deconv_config.map Prod.snd).prod

/-- `feed_forward` (line 160): `max_dilation = 2^(num_stages - 1)`. -/
def max_dilation (num_stages : ℕ) : ℕ := 2 ^ (num_stages - 1)

/-- Length of the noise draw in `feed_forward` (line 166):
`length = (num_frames * frame_shift // max_dilation) * max_dilation`. -/
def noise_length (deconv_config : List (ℕ × ℕ)) (num_stages num_frames : ℕ) : ℕ :=
  num_frames * frame_shift deconv_config / max_dilation num_stages *
    max_dilation num_stages

/-- The `[batch, length]` entries of `H_Ps_Pt_bl` in `kl_loss` (lines 249-252):
the teacher log-probabilities, given as a flat `[batch*num_samples, length]`
tensor `g`, are reshaped to `[batch, num_samples, length]` (row-major:
flat row `b * S + s` becomes `(b, s)`), mean-reduced over the sample axis
and negated. -/
noncomputable def H_Ps_Pt_bl (B S L : ℕ) (g : ℕ → ℕ → ℝ) : List (List ℝ) :=
  (List.range B).map fun b => (List.range L).map fun l =>
    -rmean ((List.range S).map fun s => g (b * S + s) l)

/-- The triple `(kl_loss, H_Ps, H_Ps_Pt)` returned by `kl_loss`
(lines 254-260): `H_Ps = mean(log_scale_tot) + 2`,
`H_Ps_Pt = reduce_mean(H_Ps_Pt_bl)`, `kl_loss = H_Ps_Pt - H_Ps`. -/
noncomputable def kl_loss_model (B S L : ℕ) (g : ℕ → ℕ → ℝ)
    (log_scale_tot : List ℝ) : ℝ × ℝ × ℝ :=
  (reduce_mean_2d (H_Ps_Pt_bl B S L g) - (rmean log_scale_tot + 2),
    rmean log_scale_tot + 2,
    reduce_mean_2d (H_Ps_Pt_bl B S L g))

/-- Modelled from the spec: `utils.tf_repeat(t, [num_samples, 1])` (not under
`src/`) broadcasts a `[batch, length]` tensor to `[batch*num_samples, length]`,
repeating each batch row for the `num_samples` repetitions, so flat row
`b * S + s` reads original row `b`. -/
def tf_repeat_rows (S : ℕ) (g : ℕ → ℕ → ℝ) : ℕ → ℕ → ℝ := fun i l => g (i / S) l

/-- The Monte-Carlo samples of `kl_loss` (lines 228-232):
`x_xp = rl * scale + mean` where `mean`/`scale` are the repeated
`mean_tot`/`scale_tot` of the feed-forward output. -/
noncomputable def kl_x_xp (S : ℕ) (rl mean_tot scale_tot : ℕ → ℕ → ℝ) :
    ℕ → ℕ → ℝ := fun i l =>
  rl i l * tf_repeat_rows S scale_tot i l + tf_repeat_rows S mean_tot i l

/-- `ParallelWavenet._trim` (lines 262-267): slice starting at
`trim_len // 2` of size `x_len - trim_len`. -/
def trim (x : List ℝ) (trim_len : ℕ) : List ℝ :=
  List.take (x.length - trim_len) (List.drop (trim_len / 2) x)

/-- The cropping step of `power_loss` (lines 276-282): the longer of the two
waveforms is trimmed by the length difference, the shorter kept unchanged. -/
def power_loss_align (pred orig : List ℝ) : List ℝ × List ℝ :=
  if orig.length < pred.length then (trim pred (pred.length - orig.length), orig)
  else if pred.length < orig.length then
    (pred, trim orig (orig.length - pred.length))
  else (pred, orig)

/-- `tf.pow(tf.abs(stft(w)), 2.0)` of `power_loss` (lines 289-292), for an
arbitrary STFT collaborator producing complex spectra. -/
noncomputable def stft_power (stft : List ℝ → List ℂ) (w : List ℝ) : List ℝ :=
  (stft w).map fun z => Complex.abs z ^ 2

/-- `power_loss` (lines 269-295): align the waveforms, form the power spectra
and return `0.5 * reduce_mean(squared_difference(orig_pow, pred_pow))`. -/
noncomputable def power_loss (stft : List ℝ → List ℂ) (pred orig : List ℝ) : ℝ :=
  0.5 * rmean (List.zipWith (fun a b => (a - b) ^ 2)
    (stft_power stft (power_loss_align pred orig).2)
    (stft_power stft (power_loss_align pred orig).1))

/-- `calculate_loss` (lines 297-307) as the association list of reported
losses: starts from the `kl_loss` bundle, adds `power_loss` and the weighted
total only when `power_loss_factor > 0`, else the total is `kl_loss` alone. -/
noncomputable def calculate_loss (power_loss_factor kl H_Ps H_Ps_Pt pl : ℝ) :
    List (String × ℝ) :=
  if 0 < power_loss_factor then
    [("kl_loss", kl), ("H_Ps", H_Ps), ("H_Ps_Pt", H_Ps_Pt),
      ("power_loss", pl), ("loss", kl + power_loss_factor * pl)]
  else
    [("kl_loss", kl), ("H_Ps", H_Ps), ("H_Ps_Pt", H_Ps_Pt), ("loss", kl)]

/-- The gated unit of `_create_iaf` (lines 105-109): requires an even channel
count (`assert d.shape[2] % 2 == 0`), then splits the channels into two equal
halves and returns `sigmoid(first_half) * tanh(second_half)`. -/
noncomputable def gated_unit (d : List ℝ) : Option (List ℝ) :=
  if d.length % 2 = 0 then
    some (List.zipWith (fun a b => sigmoid a * Real.tanh b)
      (d.take (d.length / 2)) (d.drop (d.length / 2)))
  else none

section Lemmas

/-- The sequential threading of an affine state through the stages agrees with
the closed-form accumulator: starting from the affine state `(M, S)` applied to
`z`, folding the stages keeps the running sample equal to
`z * scale_tot + mean_tot`. -/
theorem seq_thread_foldl (ps : List (ℝ × ℝ)) :
    ∀ M S z : ℝ, seq_thread (z * S + M) ps =
      z * (ps.foldl acc_step (M, S)).2 + (ps.foldl acc_step (M, S)).1 := by
  induction ps with
  | nil => intro M S z; simp [seq_thread]
  | cons p rest ih =>
    intro M S z
    have hx : iaf_step (z * S + M) p = z * (S * p.2) + (p.1 + M * p.2) := by
      simp only [iaf_step]; ring
    calc seq_thread (z * S + M) (p :: rest)
        = seq_thread (iaf_step (z * S + M) p) rest := rfl
      _ = seq_thread (z * (S * p.2) + (p.1 + M * p.2)) rest := by rw [hx]
      _ = z * (rest.foldl acc_step (p.1 + M * p.2, S * p.2)).2 +
            (rest.foldl acc_step (p.1 + M * p.2, S * p.2)).1 :=
          ih (p.1 + M * p.2) (S * p.2) z
      _ = z * ((p :: rest).foldl acc_step (M, S)).2 +
            ((p :: rest).foldl acc_step (M, S)).1 := rfl

/-- The `scale_tot` component of the accumulator is the product of the
per-stage scales (times the initial scale). -/
theorem compose_acc_snd (ps : List (ℝ × ℝ)) :
    ∀ M S : ℝ, (ps.foldl acc_step (M, S)).2 = S * (ps.map Prod.snd).prod := by
  induction ps with
  | nil => intro M S; simp
  | cons p rest ih =>
    intro M S
    simp only [List.foldl_cons, List.map_cons, List.prod_cons, acc_step]
    rw [ih]
    ring

/-- Each per-stage scale lies in `[exp (-9), exp 7]`, in both modes. -/
theorem stage_scale_bounds (mode : Bool) (raw : ℝ) :
    Real.exp (-9) ≤ stage_scale mode raw ∧ stage_scale mode raw ≤ Real.exp 7 := by
  cases mode with
  | false =>
    simp only [stage_scale, Bool.false_eq_true, if_false, clip_by_value]
    exact ⟨le_min (le_max_right _ _) (Real.exp_le_exp.2 (by norm_num)),
      min_le_right _ _⟩
  | true =>
    simp only [stage_scale, if_true, clip_by_value]
    exact ⟨Real.exp_le_exp.2 (le_min (le_max_right _ _) (by norm_num)),
      Real.exp_le_exp.2 (min_le_right _ _)⟩

/-- Each per-stage scale is strictly positive. -/
theorem stage_scale_pos (mode : Bool) (raw : ℝ) : 0 < stage_scale mode raw :=
  lt_of_lt_of_le (Real.exp_pos _) (stage_scale_bounds mode raw).1

end Lemmas

/-- C2 counterexample: with two stages whose raw scale projections are both
`-100` (log-scale mode), each per-stage scale clips to `exp (-9)`, but the
composed `scale_tot` returned by `feed_forward` is `exp (-18) < exp (-9)`,
outside the claimed interval `[exp (-9), exp 7]`. -/
theorem c2_counterexample :
    (ff_totals true [((0:ℝ), (-100:ℝ)), ((0:ℝ), (-100:ℝ))]).2 < Real.exp (-9) := by
  have he : stage_scale true (-100) = Real.exp (-9) := by
    simp only [stage_scale, if_true, clip_by_value]
    rw [max_eq_right (by norm_num : (-100:ℝ) ≤ -9),
      min_eq_left (by norm_num : (-9:ℝ) ≤ 7)]
  have hc : (ff_totals true [((0:ℝ), (-100:ℝ)), ((0:ℝ), (-100:ℝ))]).2 =
      min (Real.exp (-9) * Real.exp (-9)) (Real.exp 7) := by
    simp [ff_totals, ff_scale_tot, compose_acc, acc_step, stage_of_raw, he]
  rw [hc, ← Real.exp_add]
  norm_num

/-- C2 amended: every per-stage scale lies in `[exp (-9), exp 7]` in both
parameterization modes; the composed `scale_tot` returned by `feed_forward`
is strictly positive and at most `exp 7`, but (unlike the per-stage scales)
it has no `exp (-9)` lower bound. -/
theorem c2_amended_scale_bounds (mode : Bool) (raw : ℝ) (raws : List (ℝ × ℝ)) :
    (Real.exp (-9) ≤ stage_scale mode raw ∧ stage_scale mode raw ≤ Real.exp 7) ∧
    (0 < (ff_totals mode raws).2 ∧ (ff_totals mode raws).2 ≤ Real.exp 7) := by
  refine ⟨stage_scale_bounds mode raw, ?_, min_le_right _ _⟩
  show 0 < min (compose_acc (raws.map (stage_of_raw mode))).2 (Real.exp 7)
  refine lt_min ?_ (Real.exp_pos _)
  rw [show (compose_acc (raws.map (stage_of_raw mode))).2 =
      1 * ((raws.map (stage_of_raw mode)).map Prod.snd).prod from
    compose_acc_snd _ 0 1]
  rw [one_mul]
  apply List.prod_pos
  intro a ha
  simp only [List.map_map, List.mem_map, Function.comp] at ha
  obtain ⟨p, _, rfl⟩ := ha
  exact stage_scale_pos mode p.2

/-- C1: threading the noise sample sequentially through the affine coupling
stages (each computing `new_x = x * scale + mean`) agrees with the closed-form
accumulation rule of `feed_forward` for every stage count from 1 to 5: the
final sequential sample equals `noise * scale_tot + mean_tot` with the
accumulated totals, and `feed_forward` returns `new_x` computed from the
accumulated `mean_tot` and the upper-clipped `scale_tot`; when the clip does
not bind, this equals the sequential sample. -/
theorem c1_sequential_matches_closed_form (ps : List (ℝ × ℝ)) (z : ℝ)
    (h1 : 1 ≤ ps.length) (h5 : ps.length ≤ 5) :
    seq_thread z ps = z * (compose_acc ps).2 + (compose_acc ps).1 ∧
    ff_new_x z ps = z * min (compose_acc ps).2 (Real.exp 7) + (compose_acc ps).1 ∧
    ((compose_acc ps).2 ≤ Real.exp 7 → ff_new_x z ps = seq_thread z ps) := by
  have hseq : seq_thread z ps = z * (compose_acc ps).2 + (compose_acc ps).1 := by
    have h := seq_thread_foldl ps 0 1 z
    simpa [compose_acc] using h
  refine ⟨hseq, rfl, fun hle => ?_⟩
  rw [hseq]
  simp [ff_new_x, ff_scale_tot, min_eq_left hle]

/-- Witness for C1 at the single stage `(mean, scale) = (1, 2)` and noise `3`. -/
theorem c1_witness :
    (1 ≤ ([((1:ℝ), (2:ℝ))]).length ∧ ([((1:ℝ), (2:ℝ))]).length ≤ 5) ∧
    (seq_thread 3 [((1:ℝ), (2:ℝ))] =
        3 * (compose_acc [((1:ℝ), (2:ℝ))]).2 + (compose_acc [((1:ℝ), (2:ℝ))]).1 ∧
      ff_new_x 3 [((1:ℝ), (2:ℝ))] =
        3 * min (compose_acc [((1:ℝ), (2:ℝ))]).2 (Real.exp 7) +
          (compose_acc [((1:ℝ), (2:ℝ))]).1 ∧
      ((compose_acc [((1:ℝ), (2:ℝ))]).2 ≤ Real.exp 7 →
        ff_new_x 3 [((1:ℝ), (2:ℝ))] = seq_thread 3 [((1:ℝ), (2:ℝ))])) :=
  ⟨⟨by simp, by simp⟩,
    c1_sequential_matches_closed_form [((1:ℝ), (2:ℝ))] 3 (by simp) (by simp)⟩

/-- C3: the entropy estimator returns `H_Ps = mean(log_scale_tot) + 2`,
`H_Ps_Pt` equal to the mean over batch and time of the negative mean over the
`S` Monte-Carlo samples of the teacher log-likelihood, and
`kl_loss = H_Ps_Pt - H_Ps`. -/
theorem c3_kl_loss_formulas (B S L : ℕ) (g : ℕ → ℕ → ℝ)
    (log_scale_tot : List ℝ) :
    (kl_loss_model B S L g log_scale_tot).2.1 = rmean log_scale_tot + 2 ∧
    (kl_loss_model B S L g log_scale_tot).2.2 =
      ((List.range B).map (fun b => ((List.range L).map (fun l =>
        -(((List.range S).map (fun s => g (b * S + s) l)).sum / (S : ℝ)))).sum)).sum
        / ((B : ℝ) * (L : ℝ)) ∧
    (kl_loss_model B S L g log_scale_tot).1 =
      (kl_loss_model B S L g log_scale_tot).2.2 -
        (kl_loss_model B S L g log_scale_tot).2.1 := by
  refine ⟨rfl, ?_, rfl⟩
  show reduce_mean_2d (H_Ps_Pt_bl B S L g) = _
  have hden : ((H_Ps_Pt_bl B S L g).map List.length).sum = B * L := by
    simp [H_Ps_Pt_bl, List.map_map, Function.comp_def, List.length_map,
      List.length_range, List.map_const', List.sum_replicate, smul_eq_mul]
  simp only [reduce_mean_2d, hden]
  simp only [H_Ps_Pt_bl, List.map_map, Function.comp_def, rmean,
    List.length_map, List.length_range]
  push_cast
  ring

/-- C4: the noise draw of `feed_forward` has length exactly
`(num_frames * frame_shift / max_dilation) * max_dilation`; this length is
divisible by `max_dilation` and never exceeds `num_frames * frame_shift`. -/
theorem c4_noise_length_spec (deconv_config : List (ℕ × ℕ))
    (num_stages num_frames : ℕ) :
    noise_length deconv_config num_stages num_frames =
      num_frames * frame_shift deconv_config / max_dilation num_stages *
        max_dilation num_stages ∧
    max_dilation num_stages ∣ noise_length deconv_config num_stages num_frames ∧
    noise_length deconv_config num_stages num_frames ≤
      num_frames * frame_shift deconv_config :=
  ⟨rfl, dvd_mul_left _ _, Nat.div_mul_le_self _ _⟩

/-- C5: the Monte-Carlo samples of `kl_loss` are `noise * scale_tot + mean_tot`
where the batch coefficients produced by `feed_forward` are broadcast to each
of the `S` noise repetitions: flat row `b * S + s` reads batch row `b` of
`mean_tot` and `scale_tot`; the stage stack contributes only through these
coefficients. -/
theorem c5_mc_samples_reuse_coefficients (S : ℕ)
    (rl mean_tot scale_tot : ℕ → ℕ → ℝ) (b s l : ℕ) (hs : s < S) :
    kl_x_xp S rl mean_tot scale_tot (b * S + s) l =
      rl (b * S + s) l * scale_tot b l + mean_tot b l := by
  have hS : 0 < S := lt_of_le_of_lt (Nat.zero_le s) hs
  have hdiv : (b * S + s) / S = b := by
    rw [Nat.mul_comm, Nat.mul_add_div hS, Nat.div_eq_of_lt hs]
    omega
  simp [kl_x_xp, tf_repeat_rows, hdiv]

/-- Witness for C5 with `S = 2`, batch row `0`, repetition `1`. -/
theorem c5_witness :
    (1 < 2) ∧
    kl_x_xp 2 (fun _ _ => (5:ℝ)) (fun _ _ => (7:ℝ)) (fun _ _ => (11:ℝ)) 1 0 =
      5 * 11 + 7 :=
  ⟨by norm_num, by
    simpa using c5_mc_samples_reuse_coefficients 2 (fun _ _ => (5:ℝ))
      (fun _ _ => (7:ℝ)) (fun _ _ => (11:ℝ)) 0 1 0 (by norm_num)⟩

/-- Trimming by `d ≤ x.length` keeps exactly the middle segment: `d / 2`
samples are removed on the left and `d - d / 2` on the right. -/
theorem trim_decomp (x : List ℝ) (d : ℕ) (hd : d ≤ x.length) :
    (trim x d).length = x.length - d ∧
    (x.take (d / 2)).length = d / 2 ∧
    (x.drop (d / 2 + (x.length - d))).length = d - d / 2 ∧
    x = x.take (d / 2) ++ trim x d ++ x.drop (d / 2 + (x.length - d)) := by
  have h2 : d / 2 ≤ d := Nat.div_le_self d 2
  refine ⟨?_, ?_, ?_, ?_⟩
  · simp only [trim, List.length_take, List.length_drop]
    omega
  · simp only [List.length_take]
    omega
  · simp only [List.length_drop]
    omega
  · have hmid : x.drop (d / 2) = trim x d ++ x.drop (d / 2 + (x.length - d)) := by
      conv_lhs => rw [← List.take_append_drop (x.length - d) (x.drop (d / 2))]
      rw [List.drop_drop]
      rfl
    conv_lhs => rw [← List.take_append_drop (d / 2) x, hmid]
    rw [List.append_assoc]

/-- C6: when the two waveform lengths differ by `d > 0`, `power_loss` trims
only the longer waveform, removing `d / 2` samples on the left and `d - d / 2`
on the right, leaving both waveforms with the shorter length. -/
theorem c6_trim_alignment (pred orig : List ℝ) :
    (pred.length < orig.length →
      power_loss_align pred orig =
        (pred, trim orig (orig.length - pred.length)) ∧
      (trim orig (orig.length - pred.length)).length = pred.length ∧
      (orig.take ((orig.length - pred.length) / 2)).length =
        (orig.length - pred.length) / 2 ∧
      (orig.drop ((orig.length - pred.length) / 2 + pred.length)).length =
        (orig.length - pred.length) - (orig.length - pred.length) / 2 ∧
      orig = orig.take ((orig.length - pred.length) / 2) ++
        trim orig (orig.length - pred.length) ++
        orig.drop ((orig.length - pred.length) / 2 + pred.length)) ∧
    (orig.length < pred.length →
      power_loss_align pred orig =
        (trim pred (pred.length - orig.length), orig) ∧
      (trim pred (pred.length - orig.length)).length = orig.length ∧
      (pred.take ((pred.length - orig.length) / 2)).length =
        (pred.length - orig.length) / 2 ∧
      (pred.drop ((pred.length - orig.length) / 2 + orig.length)).length =
        (pred.length - orig.length) - (pred.length - orig.length) / 2 ∧
      pred = pred.take ((pred.length - orig.length) / 2) ++
        trim pred (pred.length - orig.length) ++
        pred.drop ((pred.length - orig.length) / 2 + orig.length)) := by
  constructor
  · intro h
    have hd : orig.length - pred.length ≤ orig.length := Nat.sub_le _ _
    obtain ⟨h1, h2, h3, h4⟩ := trim_decomp orig (orig.length - pred.length) hd
    have hshort : orig.length - (orig.length - pred.length) = pred.length := by
      omega
    rw [hshort] at h1 h3 h4
    refine ⟨?_, h1, h2, h3, h4⟩
    simp only [power_loss_align, if_neg (Nat.lt_asymm h), if_pos h]
  · intro h
    have hd : pred.length - orig.length ≤ pred.length := Nat.sub_le _ _
    obtain ⟨h1, h2, h3, h4⟩ := trim_decomp pred (pred.length - orig.length) hd
    have hshort : pred.length - (pred.length - orig.length) = orig.length := by
      omega
    rw [hshort] at h1 h3 h4
    refine ⟨?_, h1, h2, h3, h4⟩
    simp only [power_loss_align, if_pos h]

set_option maxRecDepth 8000 in
/-- Witness for C6 at the claim's concrete example: reference length 1003,
predicted length 1000, so `d = 3`, left trim `1`, right trim `2`. -/
theorem c6_witness :
    ((List.replicate 1000 (0:ℝ)).length < (List.replicate 1003 (0:ℝ)).length) ∧
    power_loss_align (List.replicate 1000 (0:ℝ)) (List.replicate 1003 (0:ℝ)) =
      (List.replicate 1000 (0:ℝ), trim (List.replicate 1003 (0:ℝ)) 3) ∧
    (trim (List.replicate 1003 (0:ℝ)) 3).length = 1000 ∧
    ((List.replicate 1003 (0:ℝ)).take 1).length = 1 ∧
    ((List.replicate 1003 (0:ℝ)).drop 1001).length = 2 := by
  have h : (List.replicate 1000 (0:ℝ)).length <
      (List.replicate 1003 (0:ℝ)).length := by simp
  obtain ⟨e1, e2, e3, e4, _⟩ :=
    (c6_trim_alignment (List.replicate 1000 (0:ℝ))
      (List.replicate 1003 (0:ℝ))).1 h
  refine ⟨h, ?_, ?_, ?_, ?_⟩
  · simpa using e1
  · simpa using e2
  · simpa using e3
  · simpa using e4

/-- The elementwise squared difference is symmetric in its two lists. -/
theorem zipWith_sq_diff_comm (l1 l2 : List ℝ) :
    List.zipWith (fun a b => (a - b) ^ 2) l1 l2 =
      List.zipWith (fun a b => (a - b) ^ 2) l2 l1 := by
  induction l1 generalizing l2 with
  | nil => cases l2 <;> simp
  | cons a t ih =>
    cases l2 with
    | nil => simp
    | cons b t2 =>
      simp only [List.zipWith_cons_cons, ih]
      congr 1
      ring

/-- The elementwise squared difference of a list with itself sums to zero. -/
theorem zipWith_sq_diff_self_sum (l : List ℝ) :
    (List.zipWith (fun a b => (a - b) ^ 2) l l).sum = 0 := by
  induction l with
  | nil => simp
  | cons a t ih => simp [ih]

/-- Swapping the two waveforms swaps the two components of the alignment. -/
theorem power_loss_align_swap (pred orig : List ℝ) :
    power_loss_align orig pred =
      ((power_loss_align pred orig).2, (power_loss_align pred orig).1) := by
  simp only [power_loss_align]
  split_ifs <;> first | rfl | (exfalso; omega)

/-- C7: for every STFT collaborator, `power_loss` is symmetric under swapping
the predicted and reference waveforms, and it returns exactly zero whenever
the two waveforms are identical after trimming. -/
theorem c7_power_loss_symmetric_and_zero (stft : List ℝ → List ℂ)
    (pred orig : List ℝ) :
    power_loss stft pred orig = power_loss stft orig pred ∧
    ((power_loss_align pred orig).1 = (power_loss_align pred orig).2 →
      power_loss stft pred orig = 0) := by
  constructor
  · have hz := zipWith_sq_diff_comm
      (stft_power stft (power_loss_align pred orig).2)
      (stft_power stft (power_loss_align pred orig).1)
    simp only [power_loss, power_loss_align_swap pred orig]
    rw [hz]
  · intro h
    simp only [power_loss, h]
    simp [rmean, zipWith_sq_diff_self_sum]

/-- Witness for C7: identical waveforms of length 2 under a concrete STFT. -/
theorem c7_witness :
    ((power_loss_align [(1:ℝ), 2] [(1:ℝ), 2]).1 =
      (power_loss_align [(1:ℝ), 2] [(1:ℝ), 2]).2) ∧
    power_loss (fun w => w.map (fun r => (r : ℂ))) [(1:ℝ), 2] [(1:ℝ), 2] = 0 :=
  ⟨by simp [power_loss_align],
    (c7_power_loss_symmetric_and_zero (fun w => w.map (fun r => (r : ℂ)))
      [(1:ℝ), 2] [(1:ℝ), 2]).2 (by simp [power_loss_align])⟩

/-- C8: `calculate_loss` reports `loss = kl_loss + power_loss_factor *
power_loss` and the `power_loss` entry exactly when `power_loss_factor > 0`;
otherwise `loss = kl_loss` and no `power_loss` entry is reported.  In both
cases the bundle contains every computed sub-loss plus the total. -/
theorem c8_calculate_loss_bundle (plf kl hps hpspt pl : ℝ) :
    (0 < plf →
      (calculate_loss plf kl hps hpspt pl).lookup "loss" =
        some (kl + plf * pl) ∧
      (calculate_loss plf kl hps hpspt pl).lookup "power_loss" = some pl) ∧
    (¬ 0 < plf →
      (calculate_loss plf kl hps hpspt pl).lookup "loss" = some kl ∧
      (calculate_loss plf kl hps hpspt pl).lookup "power_loss" = none) ∧
    (calculate_loss plf kl hps hpspt pl).lookup "kl_loss" = some kl ∧
    (calculate_loss plf kl hps hpspt pl).lookup "H_Ps" = some hps ∧
    (calculate_loss plf kl hps hpspt pl).lookup "H_Ps_Pt" = some hpspt := by
  by_cases h : 0 < plf <;>
    simp [calculate_loss, h, List.lookup]

/-- Witness for C8 at `power_loss_factor = 1` and `power_loss_factor = 0`. -/
theorem c8_witness :
    (0 < (1:ℝ)) ∧ ¬ (0 < (0:ℝ)) ∧
    (calculate_loss 1 2 3 4 5).lookup "loss" = some (2 + 1 * 5) ∧
    (calculate_loss 1 2 3 4 5).lookup "power_loss" = some 5 ∧
    (calculate_loss 0 2 3 4 5).lookup "loss" = some 2 ∧
    (calculate_loss 0 2 3 4 5).lookup "power_loss" = none :=
  ⟨by norm_num, by norm_num,
    ((c8_calculate_loss_bundle 1 2 3 4 5).1 (by norm_num)).1,
    ((c8_calculate_loss_bundle 1 2 3 4 5).1 (by norm_num)).2,
    ((c8_calculate_loss_bundle 0 2 3 4 5).2.1 (by norm_num)).1,
    ((c8_calculate_loss_bundle 0 2 3 4 5).2.1 (by norm_num)).2⟩

/-- C9: the gated unit fails exactly when the channel count of the dilated
convolution output is odd; when it is even, the output is built from the two
equal halves of the channels, `sigmoid` applied to the first half and `tanh`
to the second. -/
theorem c9_gated_unit_even_split (d : List ℝ) :
    (gated_unit d = none ↔ d.length % 2 = 1) ∧
    (∀ m : ℕ, d.length = 2 * m →
      gated_unit d = some (List.zipWith (fun a b => sigmoid a * Real.tanh b)
        (d.take m) (d.drop m)) ∧
      (d.take m).length = m ∧ (d.drop m).length = m ∧
      d = d.take m ++ d.drop m) := by
  constructor
  · unfold gated_unit
    split_ifs with h
    · simp only [reduceCtorEq, false_iff]
      omega
    · simp only [true_iff]
      omega
  · intro m hm
    have h2 : d.length % 2 = 0 := by omega
    have hm2 : d.length / 2 = m := by omega
    refine ⟨?_, ?_, ?_, (List.take_append_drop m d).symm⟩
    · unfold gated_unit
      rw [if_pos h2, hm2]
    · simp only [List.length_take]
      omega
    · simp only [List.length_drop]
      omega

/-- Witness for C9 at the two-channel input `[1, 2]`. -/
theorem c9_witness :
    (([(1:ℝ), 2]).length = 2 * 1) ∧
    gated_unit [(1:ℝ), 2] =
      some (List.zipWith (fun a b => sigmoid a * Real.tanh b)
        (([(1:ℝ), 2]).take 1) (([(1:ℝ), 2]).drop 1)) ∧
    (([(1:ℝ), 2]).take 1).length = 1 ∧ (([(1:ℝ), 2]).drop 1).length = 1 :=
  ⟨by norm_num,
    ((c9_gated_unit_even_split [(1:ℝ), 2]).2 1 (by norm_num)).1,
    ((c9_gated_unit_even_split [(1:ℝ), 2]).2 1 (by norm_num)).2.1,
    ((c9_gated_unit_even_split [(1:ℝ), 2]).2 1 (by norm_num)).2.2.1⟩

/-- C10: on the uniform support `[1e-5, 1 - 1e-5]` used by `_logistic_0_1`,
every logistic noise value lies within the bounded interval
`[log(1e-5) - log(1 - 1e-5), log(1 - 1e-5) - log(1e-5)]`; the sampler never
produces values from the unbounded tails. -/
theorem c10_logistic_noise_bounded (u : ℝ) (h1 : 1e-5 ≤ u)
    (h2 : u ≤ 1 - 1e-5) :
    Real.log 1e-5 - Real.log (1 - 1e-5) ≤ logistic_0_1 u ∧
    logistic_0_1 u ≤ Real.log (1 - 1e-5) - Real.log 1e-5 := by
  have hu0 : (0:ℝ) < 1e-5 := by norm_num
  have hupos : 0 < u := lt_of_lt_of_le hu0 h1
  have h1u : (0:ℝ) < 1 - u := by norm_num at h2 ⊢; linarith
  constructor
  · have ha : Real.log 1e-5 ≤ Real.log u := Real.log_le_log hu0 h1
    have hb : Real.log (1 - u) ≤ Real.log (1 - 1e-5) :=
      Real.log_le_log h1u (by linarith)
    simp only [logistic_0_1]
    linarith
  · have ha : Real.log u ≤ Real.log (1 - 1e-5) := Real.log_le_log hupos h2
    have hb : Real.log 1e-5 ≤ Real.log (1 - u) :=
      Real.log_le_log hu0 (by linarith)
    simp only [logistic_0_1]
    linarith

/-- Witness for C10 at the uniform draw `u = 1/2`. -/
theorem c10_witness :
    ((1e-5 : ℝ) ≤ 1/2 ∧ (1/2 : ℝ) ≤ 1 - 1e-5) ∧
    (Real.log 1e-5 - Real.log (1 - 1e-5) ≤ logistic_0_1 (1/2) ∧
      logistic_0_1 (1/2) ≤ Real.log (1 - 1e-5) - Real.log 1e-5) :=
  ⟨⟨by norm_num, by norm_num⟩,
    c10_logistic_noise_bounded (1/2) (by norm_num) (by norm_num)⟩
